import Mathlib

/-!
Verification of the py-caskdb storage engine (`format.py`, `disk_store.py`),
a BitCask-style log-structured key-value store.

Embedding conventions:
* Python `str` keys and values are represented by their UTF-8 byte
  sequences (`List Nat`); Python's UTF-8 codec is a bijection between
  strings and valid byte sequences, so every statement about the record
  codec and the engine is made at the byte level.
* The on-disk file is the `file : List Nat` field of the engine state
  (the engine owns a single backing file, opened per operation).
* Exceptions (`struct.error` / FormatError, `AssertionError` /
  ConsistencyViolation) are modelled by `Option`: `none` is an aborted
  operation.
* `struct.pack("<III", ...)` writes three little-endian unsigned 32-bit
  integers and raises when a value is out of range; `struct.unpack`
  demands that the buffer length equal the format size exactly.
-/

/-- Little-endian 4-byte encoding of an unsigned 32-bit integer, one byte
per list element (`struct.pack("<I", n)`). -/
def le32 (n : Nat) : List Nat :=
  [n % 256, n / 256 % 256, n / 65536 % 256, n / 16777216 % 256]

/-- Value of four bytes read as a little-endian unsigned 32-bit integer
(`struct.unpack("<I", ...)`). -/
def readLe32 (b0 b1 b2 b3 : Nat) : Nat :=
  b0 + 256 * b1 + 65536 * b2 + 16777216 * b3

/-- Model of `format.encode_header`: `pack("<III", timestamp, key_size, value_size)`.
`pack` raises `struct.error` (here `none`) when a value does not fit in an
unsigned 32-bit integer. -/
def encode_header (timestamp key_size value_size : Nat) : Option (List Nat) :=
  if timestamp < 2 ^ 32 ∧ key_size < 2 ^ 32 ∧ value_size < 2 ^ 32 then
    some (le32 timestamp ++ le32 key_size ++ le32 value_size)
  else none

/-- Model of `format.encode_kv`: header ++ key bytes ++ value bytes; returns
`(len(datum) - 12, datum)`. -/
def encode_kv (timestamp : Nat) (key value : List Nat) : Option (Nat × List Nat) :=
  match encode_header timestamp key.length value.length with
  | none => none
  | some header =>
    let datum := header ++ key ++ value
    some (datum.length - 12, datum)

/-- Model of `format.decode_header`: `unpack("<III", data)`, which demands that
`data` be exactly 12 bytes long. -/
def decode_header (data : List Nat) : Option (Nat × Nat × Nat) :=
  match data with
  | [t0, t1, t2, t3, k0, k1, k2, k3, v0, v1, v2, v3] =>
    some (readLe32 t0 t1 t2 t3, readLe32 k0 k1 k2 k3, readLe32 v0 v1 v2 v3)
  | _ => none

/-- Model of `format.decode_kv`: `unpack("<III", data[:12])` then
`unpack(f"<\x7bkey_size\x7ds\x7bvalue_size\x7ds", data[12:])`, which demands
that `data[12:]` be exactly `key_size + value_size` bytes long. -/
def decode_kv (data : List Nat) : Option (Nat × List Nat × List Nat) :=
  match decode_header (data.take 12) with
  | none => none
  | some (timestamp, key_size, value_size) =>
    let rest := data.drop 12
    if rest.length = key_size + value_size then
      some (timestamp, rest.take key_size, rest.drop key_size)
    else none

/-- A key-directory entry: `(file_name, record_length, offset, timestamp)`,
the `Tuple[str, int, int, int]` stored in `DiskStorage.key_dir`. -/
abbrev KeyDirEntry := String × Nat × Nat × Nat

/-- Python `dict` assignment `d[k] = v` on an association list: replace in
place when the key is present (keeping first-insertion order), else append. -/
def dictInsert (k : List Nat) (v : KeyDirEntry) :
    List (List Nat × KeyDirEntry) → List (List Nat × KeyDirEntry)
  | [] => [(k, v)]
  | (k1, v1) :: rest =>
    if k1 = k then (k, v) :: rest else (k1, v1) :: dictInsert k v rest

/-- Python `dict` lookup `d[k]` / membership `k in d` on an association
list. -/
def dictLookup (k : List Nat) :
    List (List Nat × KeyDirEntry) → Option KeyDirEntry
  | [] => none
  | (k1, v1) :: rest => if k1 = k then some v1 else dictLookup k rest

/-- State of `disk_store.DiskStorage`: the write-sequence counter, the
backing file's name, the in-memory key directory, and the bytes of the
backing file (the disk). -/
structure DiskStorage where
  timestamp : Nat
  file_name : String
  key_dir : List (List Nat × KeyDirEntry)
  file : List Nat
deriving DecidableEq

/-- Model of `DiskStorage.key_dir_from`: the startup scan loop. `suffix` is the
part of the file from the current read position onward and `pos` is that
absolute position (`file.tell()`), so `file.read(n)` is `suffix.take n`
and `file.seek(pos + n)` is `suffix.drop n`. `read(12)` returning no bytes
ends the scan; a failing `decode_header` (`struct.error`) or a failing
`assert` aborts it (`none`). -/
def key_dir_from (file_name : String) (suffix : List Nat) (pos : Nat)
    (key_dir : List (List Nat × KeyDirEntry)) :
    Option (List (List Nat × KeyDirEntry)) :=
  if hs : suffix = [] then some key_dir
  else
    match decode_header (suffix.take 12) with
    | none => none
    | some (timestamp, key_size, value_size) =>
      if 0 < key_size then
        if 0 < value_size then
          if (suffix.drop 12).take key_size = [] then none
          else
            key_dir_from file_name (suffix.drop (12 + key_size + value_size))
              (pos + (12 + key_size + value_size))
              (dictInsert ((suffix.drop 12).take key_size)
                (file_name, 12 + key_size + value_size, pos, timestamp) key_dir)
        else none
      else none
termination_by suffix.length
decreasing_by
  simp only [List.length_drop]
  have hpos : 0 < suffix.length := List.length_pos.mpr hs
  omega

/-- Model of `DiskStorage.__init__`: counter 0, empty directory; when the backing
file exists (`disk = some bytes`) the directory is rebuilt by the startup
scan, whose failure aborts construction. -/
def mkDiskStorage (file_name : String) (disk : Option (List Nat)) :
    Option DiskStorage :=
  match disk with
  | none => some ⟨0, file_name, [], []⟩
  | some bytes =>
    match key_dir_from file_name bytes 0 [] with
    | none => none
    | some d => some ⟨0, file_name, d, bytes⟩

/-- Model of `DiskStorage.next_timestamp`: increment the counter and return it
together with the updated state. -/
def DiskStorage.next_timestamp (s : DiskStorage) : Nat × DiskStorage :=
  (s.timestamp + 1, { s with timestamp := s.timestamp + 1 })

/-- Model of `DiskStorage.set`: take the next timestamp, encode the record, note
the end-of-file offset, update the directory entry and append the bytes. -/
def DiskStorage.set (s : DiskStorage) (key value : List Nat) :
    Option DiskStorage :=
  let tsp := s.next_timestamp
  match encode_kv tsp.1 key value with
  | none => none
  | some (datum_sz, datum) =>
    let s1 := tsp.2
    let pos := s1.file.length
    some { s1 with
      key_dir := dictInsert key (s1.file_name, datum_sz + 12, pos, tsp.1) s1.key_dir
      file := s1.file ++ datum }

/-- Model of `DiskStorage.get`, threaded through the state: absent key yields the
empty value; otherwise read exactly `datum_sz` bytes at `pos`, decode, and
return the stored value after the `assert`s on file name, key and
timestamp (a failing `assert` or decode is `none`). -/
def DiskStorage.get (s : DiskStorage) (key : List Nat) :
    Option (List Nat × DiskStorage) :=
  match dictLookup key s.key_dir with
  | none => some ([], s)
  | some (file_name, datum_sz, pos, timestamp) =>
    if file_name = s.file_name then
      match decode_kv ((s.file.drop pos).take datum_sz) with
      | none => none
      | some (stored_timestamp, stored_key, stored_value) =>
        if stored_key = key then
          if stored_timestamp = timestamp then some (stored_value, s)
          else none
        else none
    else none

/-- A logical record `(timestamp, key bytes, value bytes)`. -/
structure LogRecord where
  ts : Nat
  key : List Nat
  val : List Nat

/-- The bytes `encode_kv` produces for a record. -/
def LogRecord.datum (r : LogRecord) : List Nat :=
  le32 r.ts ++ le32 r.key.length ++ le32 r.val.length ++ r.key ++ r.val

/-- A record the engine can write and the startup scan accepts: 32-bit
timestamp and sizes, non-empty key and value. -/
def LogRecord.wf (r : LogRecord) : Prop :=
  r.ts < 2 ^ 32 ∧ 0 < r.key.length ∧ r.key.length < 2 ^ 32 ∧
    0 < r.val.length ∧ r.val.length < 2 ^ 32

/-- Concatenation of encoded records: the on-disk log file. -/
def encodeFile : List LogRecord → List Nat
  | [] => []
  | r :: rs => r.datum ++ encodeFile rs

/-- Directory obtained by inserting the entries of `rs` in order,
starting at offset `pos` into directory `d`. -/
def dirOf (file_name : String) (pos : Nat)
    (d : List (List Nat × KeyDirEntry)) : List LogRecord →
    List (List Nat × KeyDirEntry)
  | [] => d
  | r :: rs =>
    dirOf file_name (pos + r.datum.length)
      (dictInsert r.key
        (file_name, 12 + r.key.length + r.val.length, pos, r.ts) d) rs

/-- The records a sequence of `set` calls writes when the counter starts
at `t`: the n-th call is assigned timestamp `t + n`. -/
def recsOf (t : Nat) : List (List Nat × List Nat) → List LogRecord
  | [] => []
  | (k, v) :: ops => ⟨t + 1, k, v⟩ :: recsOf (t + 1) ops

/-- Run a sequence of `set` calls, aborting on the first failure. -/
def runSets (s : DiskStorage) : List (List Nat × List Nat) → Option DiskStorage
  | [] => some s
  | (k, v) :: ops =>
    match s.set k v with
    | none => none
    | some s1 => runSets s1 ops

/-- The backing file name used by the concrete sample states. -/
def fname : String := "f"

/-- A fresh engine over file `fname` with no pre-existing file. -/
def store0 : DiskStorage := ⟨0, fname, [], []⟩

/-- The state `store0` after `set [1] [2]`: one record at offset 0, timestamp 1. -/
def store1 : DiskStorage :=
  ⟨1, fname, [([1], (fname, 14, 0, 1))],
    [1, 0, 0, 0, 1, 0, 0, 0, 1, 0, 0, 0, 1, 2]⟩

/-- The state `store1` after `set [1] [3]`: a second record appended at offset 14,
timestamp 2; the directory entry for key `[1]` now points at it. -/
def store2 : DiskStorage :=
  ⟨2, fname, [([1], (fname, 14, 14, 2))],
    [1, 0, 0, 0, 1, 0, 0, 0, 1, 0, 0, 0, 1, 2,
     2, 0, 0, 0, 1, 0, 0, 0, 1, 0, 0, 0, 1, 3]⟩

/-- A corrupted engine state: the directory records timestamp 5 for key
`[1]` but the record on disk carries timestamp 1. -/
def staleStore : DiskStorage :=
  ⟨1, fname, [([1], (fname, 14, 0, 5))],
    [1, 0, 0, 0, 1, 0, 0, 0, 1, 0, 0, 0, 1, 2]⟩

lemma le32_length (n : Nat) : (le32 n).length = 4 := by
  simp [le32]

lemma decode_header_le32 {a b c : Nat} (ha : a < 2 ^ 32) (hb : b < 2 ^ 32)
    (hc : c < 2 ^ 32) :
    decode_header (le32 a ++ le32 b ++ le32 c) = some (a, b, c) := by
  simp only [le32, List.cons_append, List.nil_append, decode_header, readLe32,
    Option.some.injEq, Prod.mk.injEq]
  refine ⟨?_, ?_, ?_⟩ <;> omega

lemma decode_header_length {data : List Nat} {x : Nat × Nat × Nat}
    (h : decode_header data = some x) : data.length = 12 := by
  unfold decode_header at h
  split at h <;> simp_all

lemma decode_header_of_length_ne {data : List Nat} (h : data.length ≠ 12) :
    decode_header data = none := by
  unfold decode_header
  split <;> simp_all

lemma LogRecord.datum_length (r : LogRecord) :
    r.datum.length = 12 + r.key.length + r.val.length := by
  simp [LogRecord.datum, le32]
  omega

lemma LogRecord.datum_group (r : LogRecord) (rest : List Nat) :
    r.datum ++ rest =
      (le32 r.ts ++ le32 r.key.length ++ le32 r.val.length) ++
        (r.key ++ (r.val ++ rest)) := by
  simp [LogRecord.datum]

lemma header_length (a b c : Nat) :
    (le32 a ++ le32 b ++ le32 c).length = 12 := by
  simp [le32]

lemma encode_kv_eq {t : Nat} {k v : List Nat} (ht : t < 2 ^ 32)
    (hk : k.length < 2 ^ 32) (hv : v.length < 2 ^ 32) :
    encode_kv t k v = some (k.length + v.length, LogRecord.datum ⟨t, k, v⟩) := by
  unfold encode_kv encode_header
  rw [if_pos ⟨ht, hk, hv⟩]
  simp [LogRecord.datum, le32]

lemma decode_kv_datum {r : LogRecord} (ht : r.ts < 2 ^ 32)
    (hk : r.key.length < 2 ^ 32) (hv : r.val.length < 2 ^ 32) :
    decode_kv r.datum = some (r.ts, r.key, r.val) := by
  have hgroup := r.datum_group []
  rw [List.append_nil] at hgroup
  unfold decode_kv
  rw [hgroup, List.take_left' (header_length _ _ _),
    decode_header_le32 ht hk hv]
  simp only [List.drop_left' (header_length _ _ _)]
  rw [if_pos (by simp)]
  rw [List.take_left, List.drop_left]
  simp

lemma key_dir_from_nil (fn : String) (pos : Nat)
    (d : List (List Nat × KeyDirEntry)) :
    key_dir_from fn [] pos d = some d := by
  rw [key_dir_from]
  simp

lemma key_dir_from_step {fn : String} {suffix : List Nat} {pos : Nat}
    {d : List (List Nat × KeyDirEntry)} {ts ks vs : Nat}
    (hne : suffix ≠ [])
    (hdec : decode_header (suffix.take 12) = some (ts, ks, vs))
    (hks : 0 < ks) (hvs : 0 < vs)
    (hkb : (suffix.drop 12).take ks ≠ []) :
    key_dir_from fn suffix pos d =
      key_dir_from fn (suffix.drop (12 + ks + vs)) (pos + (12 + ks + vs))
        (dictInsert ((suffix.drop 12).take ks) (fn, 12 + ks + vs, pos, ts) d) := by
  rw [key_dir_from, dif_neg hne, hdec]
  simp [hks, hvs, hkb]

lemma key_dir_from_fail {fn : String} {suffix : List Nat} {pos : Nat}
    {d : List (List Nat × KeyDirEntry)} {ts ks vs : Nat}
    (hne : suffix ≠ [])
    (hdec : decode_header (suffix.take 12) = some (ts, ks, vs))
    (hbad : ks = 0 ∨ vs = 0 ∨ (suffix.drop 12).take ks = []) :
    key_dir_from fn suffix pos d = none := by
  rw [key_dir_from, dif_neg hne, hdec]
  rcases hbad with h | h | h
  · simp [h]
  · simp [h]
  · by_cases hks : 0 < ks
    · by_cases hvs : 0 < vs
      · simp [hks, hvs, h]
      · simp [hks, hvs]
    · simp [hks]

lemma key_dir_from_encodeFile (fn : String) :
    ∀ (rs : List LogRecord), (∀ r ∈ rs, r.wf) →
      ∀ (suffix : List Nat) (pos : Nat) (d : List (List Nat × KeyDirEntry)),
        key_dir_from fn (encodeFile rs ++ suffix) pos d =
          key_dir_from fn suffix (pos + (encodeFile rs).length) (dirOf fn pos d rs) := by
  intro rs
  induction rs with
  | nil =>
    intro _ suffix pos d
    simp [encodeFile, dirOf]
  | cons r rs ih =>
    intro hwf suffix pos d
    obtain ⟨hts, hk0, hk32, hv0, hv32⟩ := hwf r (List.mem_cons_self r rs)
    have hlist : encodeFile (r :: rs) ++ suffix = r.datum ++ (encodeFile rs ++ suffix) := by
      simp [encodeFile]
    rw [hlist]
    have hne : r.datum ++ (encodeFile rs ++ suffix) ≠ [] := by
      have : 0 < (r.datum ++ (encodeFile rs ++ suffix)).length := by
        rw [List.length_append, r.datum_length]
        omega
      exact List.length_pos.mp this
    have htake : (r.datum ++ (encodeFile rs ++ suffix)).take 12 =
        le32 r.ts ++ le32 r.key.length ++ le32 r.val.length := by
      rw [r.datum_group]
      exact List.take_left' (header_length _ _ _)
    have hdec : decode_header ((r.datum ++ (encodeFile rs ++ suffix)).take 12) =
        some (r.ts, r.key.length, r.val.length) := by
      rw [htake]
      exact decode_header_le32 hts hk32 hv32
    have hdrop12 : (r.datum ++ (encodeFile rs ++ suffix)).drop 12 =
        r.key ++ (r.val ++ (encodeFile rs ++ suffix)) := by
      rw [r.datum_group]
      exact List.drop_left' (header_length _ _ _)
    have hkb : ((r.datum ++ (encodeFile rs ++ suffix)).drop 12).take r.key.length = r.key := by
      rw [hdrop12]
      exact List.take_left r.key _
    have hdroprec : (r.datum ++ (encodeFile rs ++ suffix)).drop
        (12 + r.key.length + r.val.length) = encodeFile rs ++ suffix :=
      List.drop_left' r.datum_length
    rw [key_dir_from_step hne hdec hk0 hv0 (by rw [hkb]; exact List.length_pos.mp hk0),
      hkb, hdroprec, ih (fun r hr => hwf r (List.mem_cons_of_mem _ hr))]
    simp only [dirOf, encodeFile, List.length_append, r.datum_length]
    congr 1
    omega

lemma dictLookup_dictInsert_self (k : List Nat) (v : KeyDirEntry)
    (d : List (List Nat × KeyDirEntry)) :
    dictLookup k (dictInsert k v d) = some v := by
  induction d with
  | nil => simp [dictInsert, dictLookup]
  | cons p rest ih =>
    obtain ⟨k1, v1⟩ := p
    by_cases h : k1 = k <;> simp [dictInsert, dictLookup, h, ih]

lemma set_eq {s : DiskStorage} {k v : List Nat} (ht : s.timestamp + 1 < 2 ^ 32)
    (hk : k.length < 2 ^ 32) (hv : v.length < 2 ^ 32) :
    s.set k v = some ⟨s.timestamp + 1, s.file_name,
      dictInsert k
        (s.file_name, 12 + k.length + v.length, s.file.length, s.timestamp + 1)
        s.key_dir,
      s.file ++ LogRecord.datum ⟨s.timestamp + 1, k, v⟩⟩ := by
  unfold DiskStorage.set DiskStorage.next_timestamp
  simp only [encode_kv_eq ht hk hv]
  have h12 : k.length + v.length + 12 = 12 + k.length + v.length := by omega
  rw [h12]

lemma recsOf_wf :
    ∀ (ops : List (List Nat × List Nat)) (t : Nat),
      (∀ op ∈ ops, op.1 ≠ [] ∧ op.1.length < 2 ^ 32 ∧ op.2 ≠ [] ∧ op.2.length < 2 ^ 32) →
      t + ops.length < 2 ^ 32 → ∀ r ∈ recsOf t ops, r.wf := by
  intro ops
  induction ops with
  | nil => intro t _ _ r hr; simp [recsOf] at hr
  | cons op ops ih =>
    intro t hops ht r hr
    obtain ⟨k, v⟩ := op
    simp only [List.length_cons] at ht
    simp only [recsOf, List.mem_cons] at hr
    rcases hr with rfl | hr
    · obtain ⟨hk1, hk2, hv1, hv2⟩ := hops (k, v) (List.mem_cons_self _ _)
      refine ⟨by simp; omega, ?_, hk2, ?_, hv2⟩
      · exact List.length_pos.mpr hk1
      · exact List.length_pos.mpr hv1
    · exact ih (t + 1) (fun op hop => hops op (List.mem_cons_of_mem _ hop))
        (by omega) r hr

lemma recsOf_ts (ops : List (List Nat × List Nat)) :
    ∀ t : Nat, (recsOf t ops).map LogRecord.ts = List.range' (t + 1) ops.length := by
  induction ops with
  | nil => intro t; simp [recsOf]
  | cons op ops ih =>
    intro t
    obtain ⟨k, v⟩ := op
    simp [recsOf, List.range'_succ, ih (t + 1)]

lemma runSets_spec :
    ∀ (ops : List (List Nat × List Nat)) (s : DiskStorage),
      (∀ op ∈ ops, op.1 ≠ [] ∧ op.1.length < 2 ^ 32 ∧ op.2 ≠ [] ∧ op.2.length < 2 ^ 32) →
      s.timestamp + ops.length < 2 ^ 32 →
      ∃ s2, runSets s ops = some s2 ∧ s2.file_name = s.file_name ∧
        s2.timestamp = s.timestamp + ops.length ∧
        s2.file = s.file ++ encodeFile (recsOf s.timestamp ops) ∧
        s2.key_dir = dirOf s.file_name s.file.length s.key_dir (recsOf s.timestamp ops) := by
  intro ops
  induction ops with
  | nil =>
    intro s _ _
    exact ⟨s, rfl, rfl, by simp, by simp [recsOf, encodeFile],
      by simp [recsOf, dirOf]⟩
  | cons op ops ih =>
    intro s hops hts
    obtain ⟨k, v⟩ := op
    obtain ⟨hk1, hk2, hv1, hv2⟩ := hops (k, v) (List.mem_cons_self _ _)
    have hlen : s.timestamp + 1 < 2 ^ 32 := by simp at hts; omega
    have hset := set_eq (s := s) (k := k) (v := v) hlen hk2 hv2
    obtain ⟨s2, hrun, hfn, htime, hfile, hdir⟩ :=
      ih ⟨s.timestamp + 1, s.file_name,
        dictInsert k
          (s.file_name, 12 + k.length + v.length, s.file.length, s.timestamp + 1)
          s.key_dir,
        s.file ++ LogRecord.datum ⟨s.timestamp + 1, k, v⟩⟩
        (fun op hop => hops op (List.mem_cons_of_mem _ hop))
        (by simp at hts ⊢; omega)
    refine ⟨s2, ?_, hfn, ?_, ?_, ?_⟩
    · simp only [runSets, hset]
      exact hrun
    · simp only [htime]
      simp at hts ⊢
      omega
    · simp only [hfile, recsOf, encodeFile, List.append_assoc]
    · simp only [hdir, recsOf, dirOf, List.length_append, LogRecord.datum_length]

lemma get_fst_congr (s t : DiskStorage) (k : List Nat)
    (h1 : s.file_name = t.file_name) (h2 : s.key_dir = t.key_dir)
    (h3 : s.file = t.file) :
    (s.get k).map Prod.fst = (t.get k).map Prod.fst := by
  unfold DiskStorage.get
  simp only [h1, h2, h3]
  cases hd : dictLookup k t.key_dir with
  | none => simp
  | some e =>
    obtain ⟨fn, sz, pos, ts⟩ := e
    by_cases hf : fn = t.file_name
    · simp only [hf, if_true]
      cases hk : decode_kv ((t.file.drop pos).take sz) with
      | none => simp
      | some tr =>
        obtain ⟨sts, sk, sv⟩ := tr
        by_cases h5 : sk = k
        · by_cases h6 : sts = ts <;> simp [h5, h6]
        · simp [h5]
    · simp [hf]

lemma get_state {s : DiskStorage} {k v : List Nat} {t : DiskStorage}
    (h : s.get k = some (v, t)) : t = s := by
  unfold DiskStorage.get at h
  split at h
  · simp only [Option.some.injEq, Prod.mk.injEq] at h
    exact h.2.symm
  · split at h
    · split at h
      · exact absurd h (by simp)
      · split at h
        · split at h
          · simp only [Option.some.injEq, Prod.mk.injEq] at h
            exact h.2.symm
          · exact absurd h (by simp)
        · exact absurd h (by simp)
    · exact absurd h (by simp)

lemma get_after_set {s1 : DiskStorage} {k v : List Nat} {s2 : DiskStorage}
    (hts : s1.timestamp + 1 < 2 ^ 32) (hk : k.length < 2 ^ 32)
    (hv : v.length < 2 ^ 32) (h : s1.set k v = some s2) :
    s2.get k = some (v, s2) := by
  rw [set_eq hts hk hv] at h
  injection h with h
  subst h
  have hread : ((s1.file ++ LogRecord.datum ⟨s1.timestamp + 1, k, v⟩).drop
      s1.file.length).take (12 + k.length + v.length) =
      LogRecord.datum ⟨s1.timestamp + 1, k, v⟩ := by
    rw [List.drop_left]
    exact List.take_of_length_le (by simp [LogRecord.datum_length])
  unfold DiskStorage.get
  simp only [dictLookup_dictInsert_self, hread]
  rw [decode_kv_datum hts hk hv]
  simp

/-- C1: round-trip of the record codec. For every timestamp below `2 ^ 32`
and every key and value whose byte encodings are non-empty (and of 32-bit
representable length, as the header demands), encoding succeeds and
decoding the produced buffer yields back exactly the original triple. -/
theorem c1_codec_roundtrip (timestamp : Nat) (key value : List Nat)
    (hts : timestamp < 2 ^ 32) (hk0 : key ≠ []) (hk : key.length < 2 ^ 32)
    (hv0 : value ≠ []) (hv : value.length < 2 ^ 32) :
    ∃ sz datum, encode_kv timestamp key value = some (sz, datum) ∧
      decode_kv datum = some (timestamp, key, value) :=
  ⟨key.length + value.length, LogRecord.datum ⟨timestamp, key, value⟩,
    encode_kv_eq hts hk hv, decode_kv_datum hts hk hv⟩

theorem c1_codec_roundtrip_witness :
    ∃ sz datum, encode_kv 7 [1] [2] = some (sz, datum) ∧
      decode_kv datum = some (7, [1], [2]) :=
  c1_codec_roundtrip 7 [1] [2] (by decide) (by decide) (by decide) (by decide)
    (by decide)

/-- C4: unknown key. For every engine state and every key absent from the
key directory, `get` returns the empty value together with the unchanged
state, raising no error. -/
theorem c4_unknown_key (s : DiskStorage) (key : List Nat)
    (h : dictLookup key s.key_dir = none) :
    s.get key = some ([], s) := by
  unfold DiskStorage.get
  rw [h]

theorem c4_unknown_key_witness : store0.get [9] = some ([], store0) :=
  c4_unknown_key store0 [9] rfl

/-- C6: header boundary. Decoding a header from fewer than 12 bytes fails;
`decode_kv` fails on a buffer of fewer than 12 bytes, and on a buffer
shorter than `12 + key_size + value_size` as declared by its header.
Neither returns a value in those cases. -/
theorem c6_header_boundary :
    (∀ data : List Nat, data.length < 12 → decode_header data = none) ∧
    (∀ data : List Nat, data.length < 12 → decode_kv data = none) ∧
    (∀ (data : List Nat) (ts ks vs : Nat),
      decode_header (data.take 12) = some (ts, ks, vs) →
      data.length < 12 + ks + vs → decode_kv data = none) := by
  refine ⟨?_, ?_, ?_⟩
  · intro data h
    exact decode_header_of_length_ne (by omega)
  · intro data h
    unfold decode_kv
    rw [decode_header_of_length_ne (by simp [List.length_take]; omega)]
  · intro data ts ks vs hdec hlt
    have h12 : (data.take 12).length = 12 := decode_header_length hdec
    rw [List.length_take] at h12
    unfold decode_kv
    rw [hdec]
    simp only [List.length_drop]
    rw [if_neg (by omega)]

theorem c6_header_boundary_witness :
    decode_header [1, 2, 3] = none ∧ decode_kv [1, 2, 3] = none ∧
      decode_kv [1, 0, 0, 0, 2, 0, 0, 0, 2, 0, 0, 0, 9] = none :=
  ⟨c6_header_boundary.1 [1, 2, 3] (by decide),
   c6_header_boundary.2.1 [1, 2, 3] (by decide),
   c6_header_boundary.2.2 [1, 0, 0, 0, 2, 0, 0, 0, 2, 0, 0, 0, 9] 1 2 2
     (by decide) (by decide)⟩

/-- C9: exact-length decoding. `decode_header` fails on any buffer whose
length differs from 12 (in particular on longer ones); `decode_kv` fails
when the buffer is longer than `12 + key_size + value_size` (trailing
bytes are rejected); and whenever `decode_kv` succeeds the buffer length
is exactly `12 + key.length + value.length`. -/
theorem c9_exact_length_decoding :
    (∀ data : List Nat, 12 < data.length → decode_header data = none) ∧
    (∀ (data : List Nat) (ts ks vs : Nat),
      decode_header (data.take 12) = some (ts, ks, vs) →
      12 + ks + vs < data.length → decode_kv data = none) ∧
    (∀ (data : List Nat) (t : Nat) (k v : List Nat),
      decode_kv data = some (t, k, v) →
      data.length = 12 + k.length + v.length) := by
  refine ⟨?_, ?_, ?_⟩
  · intro data h
    exact decode_header_of_length_ne (by omega)
  · intro data ts ks vs hdec hlt
    have h12 : (data.take 12).length = 12 := decode_header_length hdec
    rw [List.length_take] at h12
    unfold decode_kv
    rw [hdec]
    simp only [List.length_drop]
    rw [if_neg (by omega)]
  · intro data t k v h
    unfold decode_kv at h
    cases hdr : decode_header (data.take 12) with
    | none => rw [hdr] at h; exact absurd h (by simp)
    | some tr =>
      obtain ⟨ts, ks, vs⟩ := tr
      have h12 : (data.take 12).length = 12 := decode_header_length hdr
      rw [List.length_take] at h12
      rw [hdr] at h
      simp only [List.length_drop] at h
      split at h
      · simp only [Option.some.injEq, Prod.mk.injEq] at h
        obtain ⟨-, hk, hv⟩ := h
        have hkl : k.length = min ks (data.length - 12) := by
          rw [← hk]; simp [List.length_take, List.length_drop]
        have hvl : v.length = data.length - 12 - ks := by
          rw [← hv]; simp [List.length_drop]; omega
        omega
      · exact absurd h (by simp)

theorem c9_exact_length_decoding_witness :
    decode_header [0, 0, 0, 0, 0, 0, 0, 0, 0, 0, 0, 0, 0] = none ∧
      decode_kv [1, 0, 0, 0, 1, 0, 0, 0, 1, 0, 0, 0, 5, 6, 7] = none ∧
      ([1, 0, 0, 0, 1, 0, 0, 0, 1, 0, 0, 0, 5, 6] : List Nat).length = 12 + 1 + 1 :=
  ⟨c9_exact_length_decoding.1 _ (by decide),
   c9_exact_length_decoding.2.1 [1, 0, 0, 0, 1, 0, 0, 0, 1, 0, 0, 0, 5, 6, 7]
     1 1 1 (by decide) (by decide),
   c9_exact_length_decoding.2.2 [1, 0, 0, 0, 1, 0, 0, 0, 1, 0, 0, 0, 5, 6]
     1 [5] [6] (by decide)⟩

/-- C10: get is read-only on the engine state. A successful `get` returns
the state with key directory, counter, file name and file contents exactly
as they were; `set` is the operation that changes the file, and it only
appends: it keeps the file name and extends the file with the encoded
record's bytes. -/
theorem c10_get_readonly :
    (∀ (s : DiskStorage) (k v : List Nat) (t : DiskStorage),
      s.get k = some (v, t) →
      t.key_dir = s.key_dir ∧ t.timestamp = s.timestamp ∧
        t.file_name = s.file_name ∧ t.file = s.file) ∧
    (∀ (s : DiskStorage) (k v : List Nat) (s1 : DiskStorage),
      s.set k v = some s1 →
      s1.file_name = s.file_name ∧ s1.key_dir ≠ [] ∧
        ∃ d, s1.file = s.file ++ d) := by
  constructor
  · intro s k v t h
    have := get_state h
    subst this
    exact ⟨rfl, rfl, rfl, rfl⟩
  · intro s k v s1 h
    unfold DiskStorage.set DiskStorage.next_timestamp at h
    dsimp only at h
    split at h
    · exact absurd h (by simp)
    · injection h with h
      subst h
      refine ⟨rfl, ?_, _, rfl⟩
      cases hd : s.key_dir with
      | nil => simp [dictInsert]
      | cons p rest =>
        obtain ⟨k1, v1⟩ := p
        by_cases hk : k1 = k <;> simp [dictInsert, hk]

theorem c10_get_readonly_witness :
    store1.get [1] = some ([2], store1) ∧ store1.file = store1.file :=
  ⟨by decide, (c10_get_readonly.1 store1 [1] [2] store1 (by decide)).2.2.2⟩

/-- C2: last-write-wins. After `set k v1` then `set k v2` on any engine
state (with 32-bit representable timestamps and sizes), `get k` returns
`v2`, and the backing file is the old file with the first record's bytes
intact followed by the second record's bytes: the second `set` appended a
new record without mutating or deleting the first. -/
theorem c2_last_write_wins (s : DiskStorage) (k v1 v2 : List Nat)
    (hts : s.timestamp + 2 < 2 ^ 32) (hk : k.length < 2 ^ 32)
    (hv1 : v1.length < 2 ^ 32) (hv2 : v2.length < 2 ^ 32)
    (s1 s2 : DiskStorage) (h1 : s.set k v1 = some s1)
    (h2 : s1.set k v2 = some s2) :
    s2.get k = some (v2, s2) ∧
      ∃ sz1 d1 sz2 d2, encode_kv (s.timestamp + 1) k v1 = some (sz1, d1) ∧
        encode_kv (s.timestamp + 2) k v2 = some (sz2, d2) ∧
        s2.file = s.file ++ d1 ++ d2 := by
  rw [set_eq (by omega) hk hv1] at h1
  injection h1 with h1
  subst h1
  constructor
  · exact get_after_set (show s.timestamp + 1 + 1 < 2 ^ 32 by omega) hk hv2 h2
  · rw [set_eq (show s.timestamp + 1 + 1 < 2 ^ 32 by omega) hk hv2] at h2
    injection h2 with h2
    subst h2
    exact ⟨k.length + v1.length, _, k.length + v2.length, _,
      encode_kv_eq (by omega) hk hv1, encode_kv_eq hts hk hv2, rfl⟩

theorem c2_last_write_wins_witness :
    store2.get [1] = some ([3], store2) ∧
      ∃ sz1 d1 sz2 d2, encode_kv 1 [1] [2] = some (sz1, d1) ∧
        encode_kv 2 [1] [3] = some (sz2, d2) ∧
        store2.file = store0.file ++ d1 ++ d2 :=
  c2_last_write_wins store0 [1] [2] [3] (by decide) (by decide) (by decide)
    (by decide) store1 store2 (by decide) (by decide)

/-- C5: write-sequence counter. The constructor always sets the counter
to 0, regardless of what is on disk; `next_timestamp` increments then
returns; each successful `set` bumps the counter by one and writes a
record carrying the new counter value; and a run of `set` calls from a
fresh engine leaves the counter at the number of calls and writes records
timestamped 1, 2, 3, ... in order. -/
theorem c5_write_sequence_counter :
    (∀ (fn : String) (disk : Option (List Nat)) (s : DiskStorage),
      mkDiskStorage fn disk = some s → s.timestamp = 0) ∧
    (∀ s : DiskStorage, s.next_timestamp.1 = s.timestamp + 1 ∧
      s.next_timestamp.2.timestamp = s.timestamp + 1) ∧
    (∀ (s : DiskStorage) (k v : List Nat) (s1 : DiskStorage),
      s.set k v = some s1 → s1.timestamp = s.timestamp + 1 ∧
        ∃ sz d, encode_kv (s.timestamp + 1) k v = some (sz, d) ∧
          s1.file = s.file ++ d) ∧
    (∀ (fn : String) (ops : List (List Nat × List Nat)) (s : DiskStorage),
      (∀ op ∈ ops, op.1 ≠ [] ∧ op.1.length < 2 ^ 32 ∧
        op.2 ≠ [] ∧ op.2.length < 2 ^ 32) →
      ops.length < 2 ^ 32 →
      runSets ⟨0, fn, [], []⟩ ops = some s →
      s.timestamp = ops.length ∧
        (recsOf 0 ops).map LogRecord.ts = List.range' 1 ops.length ∧
        s.file = encodeFile (recsOf 0 ops)) := by
  refine ⟨?_, ?_, ?_, ?_⟩
  · intro fn disk s h
    cases disk with
    | none =>
      simp only [mkDiskStorage] at h
      injection h with h
      subst h
      rfl
    | some bytes =>
      simp only [mkDiskStorage] at h
      split at h
      · exact absurd h (by simp)
      · injection h with h
        subst h
        rfl
  · intro s
    exact ⟨rfl, rfl⟩
  · intro s k v s1 h
    unfold DiskStorage.set DiskStorage.next_timestamp at h
    dsimp only at h
    split at h
    · exact absurd h (by simp)
    · rename_i datum_sz datum heq
      injection h with h
      subst h
      exact ⟨rfl, datum_sz, datum, heq, rfl⟩
  · intro fn ops s hops hlen hrun
    obtain ⟨s2, hrun2, hfn, htime, hfile, hdir⟩ :=
      runSets_spec ops ⟨0, fn, [], []⟩ hops (by simpa)
    rw [hrun] at hrun2
    injection hrun2 with hrun2
    subst hrun2
    refine ⟨?_, ?_, ?_⟩
    · rw [htime]
      simp
    · exact recsOf_ts ops 0
    · rw [hfile]
      simp

/-- C7: fail-fast startup scan. If the current record's decoded header
declares a zero key or value size, or the key read yields no bytes, the
scan aborts with `none`; scanning a well-formed prefix of records only
passes the scan position beyond it (no record is skipped, so a bad record
anywhere is reached and aborts); and a failing scan makes the constructor
abort engine initialization entirely. -/
theorem c7_fail_fast_scan :
    (∀ (fn : String) (suffix : List Nat) (pos : Nat)
        (d : List (List Nat × KeyDirEntry)) (ts ks vs : Nat),
      suffix ≠ [] → decode_header (suffix.take 12) = some (ts, ks, vs) →
      (ks = 0 ∨ vs = 0 ∨ (suffix.drop 12).take ks = []) →
      key_dir_from fn suffix pos d = none) ∧
    (∀ (fn : String) (rs : List LogRecord), (∀ r ∈ rs, r.wf) →
      ∀ (suffix : List Nat) (pos : Nat) (d : List (List Nat × KeyDirEntry)),
        key_dir_from fn (encodeFile rs ++ suffix) pos d =
          key_dir_from fn suffix (pos + (encodeFile rs).length) (dirOf fn pos d rs)) ∧
    (∀ (fn : String) (bytes : List Nat),
      key_dir_from fn bytes 0 [] = none → mkDiskStorage fn (some bytes) = none) := by
  refine ⟨?_, ?_, ?_⟩
  · intro fn suffix pos d ts ks vs h1 h2 h3
    exact key_dir_from_fail h1 h2 h3
  · intro fn rs hwf suffix pos d
    exact key_dir_from_encodeFile fn rs hwf suffix pos d
  · intro fn bytes h
    simp only [mkDiskStorage, h]

theorem c7_fail_fast_scan_witness :
    key_dir_from fname [5, 0, 0, 0, 0, 0, 0, 0, 1, 0, 0, 0, 7] 0 [] = none ∧
      mkDiskStorage fname (some [5, 0, 0, 0, 0, 0, 0, 0, 1, 0, 0, 0, 7]) = none := by
  have h1 := c7_fail_fast_scan.1 fname [5, 0, 0, 0, 0, 0, 0, 0, 1, 0, 0, 0, 7]
    0 [] 5 0 1 (by decide) (by decide) (Or.inl rfl)
  exact ⟨h1, c7_fail_fast_scan.2.2 fname _ h1⟩

/-- C8: read consistency check. For a key present in the directory, `get`
reads exactly `record_length` bytes at the recorded offset and decodes
them; it returns a value only when the decoded key equals the requested
key and the decoded timestamp equals the directory entry's timestamp, and
fails with `none` on any disagreement (or on a decode failure, or a file
name mismatch). -/
theorem c8_read_consistency (s : DiskStorage) (key : List Nat)
    (fn : String) (len pos ts : Nat)
    (hlook : dictLookup key s.key_dir = some (fn, len, pos, ts)) :
    (fn ≠ s.file_name → s.get key = none) ∧
    (fn = s.file_name →
      (decode_kv ((s.file.drop pos).take len) = none → s.get key = none) ∧
      (∀ sts skey sval,
        decode_kv ((s.file.drop pos).take len) = some (sts, skey, sval) →
        (skey ≠ key ∨ sts ≠ ts) → s.get key = none) ∧
      (∀ v t, s.get key = some (v, t) →
        decode_kv ((s.file.drop pos).take len) = some (ts, key, v))) := by
  unfold DiskStorage.get
  rw [hlook]
  refine ⟨?_, ?_⟩
  · intro hne
    simp [hne]
  · intro heq
    subst heq
    refine ⟨?_, ?_, ?_⟩
    · intro hdec
      simp [hdec]
    · intro sts skey sval hdec hne
      rcases hne with h | h
      · simp [hdec, h]
      · by_cases h2 : skey = key
        · simp [hdec, h2, h]
        · simp [hdec, h2]
    · intro v t hget
      simp only [if_pos rfl] at hget
      cases hd : decode_kv ((s.file.drop pos).take len) with
      | none =>
        rw [hd] at hget
        exact absurd hget (by simp)
      | some tr =>
        obtain ⟨sts, sk, sv⟩ := tr
        rw [hd] at hget
        by_cases hsk : sk = key
        · by_cases hst : sts = ts
          · subst hsk
            subst hst
            simp only [if_true, Option.some.injEq, Prod.mk.injEq] at hget
            rw [hget.1]
          · simp [hsk, hst] at hget
        · simp [hsk] at hget

theorem c8_read_consistency_witness : staleStore.get [1] = none := by
  have h := c8_read_consistency staleStore [1] fname 14 0 5 (by decide)
  exact (h.2 rfl).2.1 1 [1] [2] (by decide) (Or.inr (by decide))

theorem c5_write_sequence_counter_witness :
    store0.timestamp = 0 ∧ store1.timestamp = store0.timestamp + 1 ∧
      (recsOf 0 [([1], [2])]).map LogRecord.ts = List.range' 1 1 := by
  refine ⟨?_, ?_, ?_⟩
  · exact c5_write_sequence_counter.1 fname none store0 rfl
  · exact (c5_write_sequence_counter.2.2.1 store0 [1] [2] store1 (by decide)).1
  · exact (c5_write_sequence_counter.2.2.2 fname [([1], [2])] store1 (by decide)
      (by decide) (by decide)).2.1

/-- C3: persistence across restart. For every sequence of `set` calls
performed on a fresh engine over file name `fn` (non-empty keys and
values of 32-bit representable size, fewer than `2 ^ 32` calls),
constructing a fresh engine over the resulting file succeeds — the
startup scan rebuilds the key directory — and its `get` returns the same
value as the first instance's `get` for every key, without any `set`
being re-issued. -/
theorem c3_persistence_across_restart (fn : String)
    (ops : List (List Nat × List Nat)) (s : DiskStorage)
    (hops : ∀ op ∈ ops, op.1 ≠ [] ∧ op.1.length < 2 ^ 32 ∧
      op.2 ≠ [] ∧ op.2.length < 2 ^ 32)
    (hlen : ops.length < 2 ^ 32)
    (hrun : runSets ⟨0, fn, [], []⟩ ops = some s) :
    ∃ s2, mkDiskStorage fn (some s.file) = some s2 ∧
      ∀ k, (s2.get k).map Prod.fst = (s.get k).map Prod.fst := by
  obtain ⟨s2, hrun2, hfn, htime, hfile, hdir⟩ :=
    runSets_spec ops ⟨0, fn, [], []⟩ hops (by simpa)
  rw [hrun] at hrun2
  injection hrun2 with hrun2
  subst hrun2
  have hwf := recsOf_wf ops 0 hops (by simpa)
  have hscan : key_dir_from fn s.file 0 [] =
      some (dirOf fn 0 [] (recsOf 0 ops)) := by
    have h1 := key_dir_from_encodeFile fn (recsOf 0 ops) hwf [] 0 []
    rw [List.append_nil, key_dir_from_nil] at h1
    rw [hfile]
    simpa using h1
  refine ⟨⟨0, fn, dirOf fn 0 [] (recsOf 0 ops), s.file⟩, ?_, ?_⟩
  · simp only [mkDiskStorage, hscan]
  · intro k
    apply get_fst_congr
    · exact hfn.symm
    · exact hdir.symm
    · rfl

theorem c3_persistence_across_restart_witness :
    ∃ s2, mkDiskStorage fname (some store1.file) = some s2 ∧
      (s2.get [1]).map Prod.fst = some [2] := by
  obtain ⟨s2, h1, h2⟩ := c3_persistence_across_restart fname [([1], [2])] store1
    (by decide) (by decide) (by decide)
  exact ⟨s2, h1, (h2 [1]).trans (by decide)⟩
